import Mathlib

/-!
# wtm-demo: grid compositor and filter pipeline

A shallow embedding of the two Go programs of the repository

* `lambdaCombine/imagesCombine.go` (`imageCombine`, `downloadAndDecode`, `handler`), and
* `lambdaModify/imageModify.go` (`imageModify`, `handler`),

followed by the theorems that settle the properties stated about them.

Conventions.

* Go `int` values are modelled by `Nat`.  Every integer the two programs compute is a
  slice length, a slice index, or a product of such an index with `420`; a Go slice of
  interface values holds fewer than `2 ^ 44` elements, so none of these products leaves
  the range of a 64-bit `int`.
* An `image.Image` is its width, its height and its pixels read as NRGBA values relative
  to the top-left corner of its bounds.
* Calls into `github.com/disintegration/imaging` are modelled after that library: the
  geometry (sizes, crop windows, paste rectangles) is computed exactly; the colour
  arithmetic, which the library does in floating point, is taken as a parameter
  (`PixelOps`).
* Calls that reach outside the process (S3, the environment) and the codecs are taken
  from a `World` of outcomes, and every handler returns the list of effects it performed
  next to its result.
-/

namespace WtmDemo

/-! ## Images and the `imaging` library -/

/-- One pixel as `color.NRGBA`: red, green, blue and alpha. -/
structure Pixel where
  R : Nat
  G : Nat
  B : Nat
  A : Nat
  deriving DecidableEq, Repr

/-- The value `color.NRGBA{0, 0, 0, 0}`. -/
def transparent : Pixel := ⟨0, 0, 0, 0⟩

/-- An in-memory image: `Bounds().Dx()`, `Bounds().Dy()` and the pixel at each offset
from the top-left corner of the bounds. -/
structure Image where
  w : Nat
  h : Nat
  px : Nat → Nat → Pixel

/-- The value `image.Point`, for the non-negative points the programs build. -/
structure Point where
  X : Nat
  Y : Nat
  deriving DecidableEq, Repr

/-- The empty image `&image.NRGBA{}`. -/
def emptyImage : Image := ⟨0, 0, fun _ _ => transparent⟩

/-- A uniformly grey image of the given size. -/
def grey (w h : Nat) : Image := ⟨w, h, fun _ _ => ⟨128, 128, 128, 255⟩⟩

/-- The call `imaging.New(width, height, fill)`: an empty image when a side is not
positive, else a `width` by `height` image filled with `fill`. -/
def New (width height : Nat) (fill : Pixel) : Image :=
  if width = 0 ∨ height = 0 then emptyImage
  else ⟨width, height, fun _ _ => fill⟩

/-- The call `imaging.Paste(background, img, pos)`: a copy of `background` in which the
pixels of the rectangle `[pos, pos + size img)` that lie inside the background are
replaced by the pixels of `img`; `img` is neither scaled nor cropped to a cell. -/
def Paste (background img : Image) (pos : Point) : Image :=
  { w := background.w
    h := background.h
    px := fun x y =>
      if pos.X ≤ x ∧ x < pos.X + img.w ∧ pos.Y ≤ y ∧ y < pos.Y + img.h
          ∧ x < background.w ∧ y < background.h then
        img.px (x - pos.X) (y - pos.Y)
      else background.px x y }

/-- The colour arithmetic of `imaging`, which the library carries out in floating point:
the Lanczos resampling of an image to a size, the Gaussian blur of an image for a sigma,
the grey value of a pixel, and the saturation change of a pixel for a percentage. -/
structure PixelOps where
  resample : Image → Nat → Nat → Nat → Nat → Pixel
  blur : ℚ → Image → Nat → Nat → Pixel
  grayscale : Pixel → Pixel
  saturation : ℚ → Pixel → Pixel

/-- The call `imaging.CropCenter(img, width, height)`: the rectangle of the given size
whose corner is `((Dx - width) / 2, (Dy - height) / 2)` (Go division, which truncates),
intersected with the bounds of the image; the empty image when nothing is left. -/
def CropCenter (img : Image) (width height : Nat) : Image :=
  let x0 : Int := Int.tdiv ((img.w : Int) - (width : Int)) 2
  let y0 : Int := Int.tdiv ((img.h : Int) - (height : Int)) 2
  let minX : Int := max x0 0
  let minY : Int := max y0 0
  let maxX : Int := min (x0 + (width : Int)) (img.w : Int)
  let maxY : Int := min (y0 + (height : Int)) (img.h : Int)
  if maxX ≤ minX ∨ maxY ≤ minY then emptyImage
  else
    { w := (maxX - minX).toNat
      h := (maxY - minY).toNat
      px := fun x y => img.px (minX.toNat + x) (minY.toNat + y) }

/-- The value `floor (a / b + 0.5)` that `imaging.Resize` computes for the side it is not
given.  The library computes it in `float64`; for the sizes an image can have the
result is this one. -/
def roundDiv (a b : Nat) : Nat := (2 * a + b) / (2 * b)

/-- The call `imaging.Resize(img, width, height, imaging.Lanczos)`: the empty image when
both sides asked for are zero or the source is empty; a side given as zero is derived
from the other one, keeping the proportions, and is at least one; the image is
resampled unless it already has the size asked for. -/
def Resize (ops : PixelOps) (img : Image) (width height : Nat) : Image :=
  if width = 0 ∧ height = 0 then emptyImage
  else if img.w = 0 ∨ img.h = 0 then emptyImage
  else
    let dstW := if width = 0 then max 1 (roundDiv (height * img.w) img.h) else width
    let dstH := if height = 0 then max 1 (roundDiv (dstW * img.h) img.w) else height
    { w := dstW
      h := dstH
      px := if img.w = dstW ∧ img.h = dstH then img.px else ops.resample img dstW dstH }

/-- The call `imaging.Blur(img, sigma)`: a copy when `sigma` is not positive, else the
blurred image; the size is that of `img`. -/
def Blur (ops : PixelOps) (img : Image) (sigma : ℚ) : Image :=
  { w := img.w
    h := img.h
    px := if sigma ≤ 0 then img.px else ops.blur sigma img }

/-- The call `imaging.Grayscale(img)`. -/
def Grayscale (ops : PixelOps) (img : Image) : Image :=
  { w := img.w
    h := img.h
    px := fun x y => ops.grayscale (img.px x y) }

/-- The call `imaging.Invert(img)`: every colour channel `c` becomes `255 - c`, alpha is
kept. -/
def Invert (img : Image) : Image :=
  { w := img.w
    h := img.h
    px := fun x y =>
      ⟨255 - (img.px x y).R, 255 - (img.px x y).G, 255 - (img.px x y).B, (img.px x y).A⟩ }

/-- The call `imaging.AdjustSaturation(img, percentage)`: a copy when the percentage is
zero, else every pixel adjusted. -/
def AdjustSaturation (ops : PixelOps) (img : Image) (percentage : ℚ) : Image :=
  { w := img.w
    h := img.h
    px := fun x y =>
      if percentage = 0 then img.px x y else ops.saturation percentage (img.px x y) }

/-! ## `lambdaCombine/imagesCombine.go` : `imageCombine` -/

/-- The `switch` at the head of `imageCombine`: `(width, height)` from `len(images)`.
The variables start at Go's zero value and keep it when no case applies. -/
def canvasSize (n : Nat) : Nat × Nat :=
  if n ≤ 25 then (2100, 2100)
  else if n > 25 ∧ n ≤ 50 then (2100, 4200)
  else if n > 50 then (2100, 6300)
  else (0, 0)

/-- The position computed in the body of the loop of `imageCombine` for index `k`:
`y, x := k/d, k%d` and `pos1, pos2 := (width/d)*x, (width/d)*y`. -/
def pastePos (width d k : Nat) : Point :=
  let y := k / d
  let x := k % d
  ⟨(width / d) * x, (width / d) * y⟩

/-- The loop `for k, v := range images` of `imageCombine`, from index `k` on. -/
def pasteLoop (width d : Nat) : Nat → List Image → Image → Image
  | _, [], dst => dst
  | k, v :: rest, dst => pasteLoop width d (k + 1) rest (Paste dst v (pastePos width d k))

/-- The function `imageCombine`. -/
def imageCombine (images : List Image) : Image :=
  let width := (canvasSize images.length).1
  let height := (canvasSize images.length).2
  let dst := New width height transparent
  let d := 5
  pasteLoop width d 0 images dst

/-- The cell of index `k`: the square of side `width / d` whose top-left corner is the
paste position of `k`; `inCell width d k x y` says that pixel `(x, y)` lies in it. -/
def inCell (width d k x y : Nat) : Prop :=
  (pastePos width d k).X ≤ x ∧ x < (pastePos width d k).X + width / d
    ∧ (pastePos width d k).Y ≤ y ∧ y < (pastePos width d k).Y + width / d

/-! ## Effects

The handlers talk to S3, to the environment and to the codecs.  Each handler returns the
list of the steps it performed, in order, next to its result. -/

/-- A byte string. -/
abbrev Bytes := List Nat

/-- One step performed by a handler: a line written with `log`, a call that leaves the
process, a codec call, or a call of `imageCombine` or `imageModify`. -/
inductive Effect where
  | log (line : String)
  | newSession (region : String)
  | listObjects (bucket : String)
  | download (bucket key : String)
  | jpegDecode (data : Bytes)
  | pngDecode (data : Bytes)
  | base64Decode (text : String)
  | imageCombine (images : List Image)
  | imageModify (operation : String)
  | pngEncode
  | jpegEncode
  | getenv (name : String)
  | upload (bucket key : String) (body : Bytes)

/-! ## `lambdaCombine/imagesCombine.go` : `downloadAndDecode` and `handler` -/

/-- The struct `item`.  A `time.Time` is the instant it denotes, counted in nanoseconds;
`Before` is `<` on instants. -/
structure item where
  name : String
  lastModified : Int
  deriving DecidableEq, Repr

/-- One entry of `resp.Contents`: the key and the modification time of an object. -/
structure Object where
  Key : String
  LastModified : Int
  deriving DecidableEq, Repr

/-- The routine `sort.Slice` as the handler uses it: from the comparison and the slice to
the slice after the call.  The Go library documents that it sorts the slice and that the
sort is not guaranteed to be stable. -/
abbrev Sorter := (item → item → Bool) → List item → List item

/-- What `sort.Slice` guarantees for a comparison that is a strict weak ordering: the
result is a rearrangement of the slice in which no element is less than an earlier
one. -/
def SortSliceContract (sortSlice : Sorter) : Prop :=
  ∀ less : item → item → Bool,
    (∀ a b, less a b = true → less b a = false) →
    (∀ a b c, less a b = false → less b c = false → less a c = false) →
    ∀ xs, (sortSlice less xs).Perm xs
      ∧ (sortSlice less xs).Pairwise (fun a b => less b a = false)

/-- The loop `for j := i; j > a && less(j, j-1); j--` of `insertionSort_func` in Go's
package `sort`: the element `x` moves left past every element it is less than.  The
sorted run on its left is held last element first. -/
def insertBack (less : item → item → Bool) (x : item) : List item → List item
  | [] => [x]
  | p :: ps => if less x p then p :: insertBack less x ps else x :: p :: ps

/-- The routine `insertionSort_func` of Go's package `sort`. -/
def insertionSort (less : item → item → Bool) (xs : List item) : List item :=
  (xs.foldl (fun run x => insertBack less x run) []).reverse

/-- The pass `for i := a + 6; i < b; i++ { if less(i, i-6) { swap(i, i-6) } }` that
`quickSort_func` of Go's package `sort` (Go 1.18 and earlier) runs before the insertion
sort.  `window` holds the six elements before position `i`; the element leaving the
window is final. -/
def gapPass (less : item → item → Bool) : List item → List item → List item
  | window, [] => window
  | [], c :: rest => c :: rest
  | p :: window, c :: rest =>
    if less c p then c :: gapPass less (window ++ [p]) rest
    else p :: gapPass less (window ++ [c]) rest

/-- What `sort.Slice` of Go 1.18 and earlier does with a slice of at most twelve elements
(`quickSort_func` skips its partitioning loop): the gap-6 pass, then the insertion sort.
Applied here to a slice of any length, where it sorts as well. -/
def shellInsertionSort : Sorter := fun less xs =>
  if xs.length > 1 then insertionSort less (gapPass less (xs.take 6) (xs.drop 6)) else xs

/-- Items with equal `lastModified` keep the relative order they have in `listing`: for
every instant, the items of that instant come in the same order in both lists. -/
def KeepsTieOrder (listing out : List item) : Prop :=
  ∀ t : Int, out.filter (fun o => decide (o.lastModified = t))
    = listing.filter (fun o => decide (o.lastModified = t))

/-- The format verb `%q` for a bucket name, which consists of letters, digits, dots and
hyphens: the name between double quotes. -/
def quoted (s : String) : String := "\"" ++ s ++ "\""

/-- The arguments of the calls of `imageCombine` among the steps of a run. -/
def combinedImages : List Effect → List (List Image)
  | [] => []
  | .imageCombine images :: rest => images :: combinedImages rest
  | _ :: rest => combinedImages rest

/-- The keys of the objects downloaded among the steps of a run, in order. -/
def downloadedKeys : List Effect → List String
  | [] => []
  | .download _ key :: rest => key :: downloadedKeys rest
  | _ :: rest => downloadedKeys rest

namespace Combine

/-- The fields of an `events.S3EventRecord` the handler reads. -/
structure S3EventRecord where
  bucket : String
  key : String
  awsRegion : String

/-- The outcomes of the calls the grid handler makes outside its own code while it
processes one record.  `download n bucket key` is the outcome of the download of `key`
when it is the `n`-th item of the loop (from 0), so that any sequence of outcomes can
be described. -/
structure World where
  newSession : String → Except String Unit
  listObjects : String → Except String (List Object)
  download : Nat → String → String → Except String Bytes
  jpegDecode : Bytes → Except String Image
  pngEncode : Image → Except String Bytes
  getenv : String → String
  upload : String → String → Bytes → Except String String

/-- What a run of the grid handler leaves: the steps performed and the error returned. -/
structure Run where
  effects : List Effect
  err : Option String

/-- The function `downloadAndDecode`, called for the `n`-th item of the loop: the steps
it performs and what it returns. -/
def downloadAndDecode (w : World) (n : Nat) (bucket key : String) :
    List Effect × Except String Image :=
  match w.download n bucket key with
  | .error err => ([.download bucket key], .error ("Could not download from S3: " ++ err))
  | .ok imgBytes =>
    match w.jpegDecode imgBytes with
    | .error err =>
      ([.download bucket key, .jpegDecode imgBytes], .error ("jpg decode error: " ++ err))
    | .ok img => ([.download bucket key, .jpegDecode imgBytes], .ok img)

/-- The construction of `s3Items` from `resp.Contents` and the call of `sort.Slice` with
the comparison `s3Items[i].lastModified.Before(s3Items[j].lastModified)`. -/
def sortItems (sortSlice : Sorter) (contents : List Object) : List item :=
  let s3Items := contents.map (fun o => { name := o.Key, lastModified := o.LastModified })
  sortSlice (fun a b => decide (a.lastModified < b.lastModified)) s3Items

/-- The loop `for _, o := range s3Items` of the handler, from the `n`-th item on: the
images collected and the steps performed. -/
def fetchLoop (w : World) (bucket : String) :
    Nat → List item → List Image → List Effect → List Image × List Effect
  | _, [], images, tr => (images, tr)
  | n, o :: rest, images, tr =>
    match downloadAndDecode w n bucket o.name with
    | (steps, .error err) =>
      fetchLoop w bucket (n + 1) rest images
        (tr ++ steps ++ [.log ("Cannot download " ++ o.name ++ " from " ++ bucket ++ ", "
          ++ err)])
    | (steps, .ok img) => fetchLoop w bucket (n + 1) rest (images ++ [img]) (tr ++ steps)

/-- The body of the loop `for _, record := range event.Records` of the handler. -/
def handleRecord (sortSlice : Sorter) (w : World) (record : S3EventRecord) : Run :=
  let bucket := record.bucket
  let key := record.key
  let tr := [Effect.log ("Using bucket: " ++ bucket ++ " and key: " ++ key),
    .newSession record.awsRegion]
  match w.newSession record.awsRegion with
  | .error err => ⟨tr, some ("cannot initialize session: " ++ err)⟩
  | .ok _ =>
    let tr := tr ++ [.listObjects bucket]
    match w.listObjects bucket with
    | .error err =>
      ⟨tr, some ("unable to list items in bucket " ++ quoted bucket ++ ", " ++ err)⟩
    | .ok contents =>
      if contents.length > 75 then
        ⟨tr, some ("stop processing, too many images to process, limit 75, got: "
          ++ toString contents.length)⟩
      else
        let s3Items := sortItems sortSlice contents
        let fetched := fetchLoop w bucket 0 s3Items [] tr
        let images := fetched.1
        let tr := fetched.2 ++ [.imageCombine images]
        let newImg := imageCombine images
        let tr := tr ++ [.pngEncode]
        match w.pngEncode newImg with
        | .error err => ⟨tr, some ("encoding error: " ++ err)⟩
        | .ok buf =>
          let tr := tr ++ [.log "Starting upload to S3",
            .getenv "BUCKET_FOR_SAVING_COMBINED_IMG"]
          let bucketForSave := w.getenv "BUCKET_FOR_SAVING_COMBINED_IMG"
          if bucketForSave = "" then
            ⟨tr, some "cannot find bucket name, specify BUCKET_FOR_SAVING_COMBINED_IMG env"⟩
          else
            let tr := tr ++ [.upload bucketForSave "combined.png" buf]
            match w.upload bucketForSave "combined.png" buf with
            | .error err => ⟨tr, some ("Failed to upload: " ++ err)⟩
            | .ok location => ⟨tr ++ [.log ("Successfully uploaded to: " ++ location)], none⟩

/-- The function `handler` of `imagesCombine.go`: the records are processed in order,
record `n` in the world `w n`, and the first error is returned. -/
def handler (sortSlice : Sorter) (w : Nat → World) :
    Nat → List S3EventRecord → List Effect → Run
  | _, [], tr => ⟨tr, none⟩
  | n, record :: rest, tr =>
    match (handleRecord sortSlice (w n) record).err with
    | some err => ⟨tr ++ (handleRecord sortSlice (w n) record).effects, some err⟩
    | none => handler sortSlice w (n + 1) rest
        (tr ++ (handleRecord sortSlice (w n) record).effects)

/-- A world for one record: the bucket lists `contents`; the download of a key of
`failing` fails, every other download returns the characters of the key as bytes; the
decoder returns a grey image as wide as the first byte; every other call succeeds. -/
def demoWorld (contents : List Object) (failing : List String) : World :=
  { newSession := fun _ => .ok ()
    listObjects := fun _ => .ok contents
    download := fun _ _ key =>
      if key ∈ failing then .error "NoSuchKey" else .ok (key.data.map Char.toNat)
    jpegDecode := fun data => .ok (grey (data.headD 0) 1)
    pngEncode := fun _ => .ok [3]
    getenv := fun _ => "combined"
    upload := fun _ _ _ => .ok "s3://combined/combined.png"
  }

/-- The record used in the examples. -/
def demoRecord : S3EventRecord := ⟨"uploads", "A", "eu-west-1"⟩

/-- The listing of the example: names A, B, C with the instants 3, 1, 2. -/
def exampleContents : List Object := [⟨"A", 3⟩, ⟨"B", 1⟩, ⟨"C", 2⟩]

/-- A listing with ties: A is the newest object, B to G share one instant. -/
def tiedContents : List Object :=
  [⟨"A", 2⟩, ⟨"B", 1⟩, ⟨"C", 1⟩, ⟨"D", 1⟩, ⟨"E", 1⟩, ⟨"F", 1⟩, ⟨"G", 1⟩]

/-- The error of the admission check for a listing of `n` objects. -/
def tooManyImages (n : Nat) : String :=
  "stop processing, too many images to process, limit 75, got: " ++ toString n

end Combine

/-! ## `lambdaModify/imageModify.go` : `imageModify` -/

/-- The five operation tags of `imageModify`. -/
def operations : List String := ["blur", "grayscale", "invert", "adjustSaturation", "all"]

/-- The function `imageModify`: `.ok img` for `(img, nil)` and `.error msg` for
`(nil, fmt.Errorf(msg))`. -/
def imageModify (ops : PixelOps) (input : Image) (operation : String) : Except String Image :=
  let input :=
    if input.w ≤ input.h then CropCenter input input.w input.w
    else CropCenter input input.h input.h
  let input := Resize ops input 400 400
  if operation = "blur" then
    .ok (Blur ops input 1.5)
  else if operation = "grayscale" then
    .ok (Grayscale ops input)
  else if operation = "invert" then
    .ok (Invert input)
  else if operation = "adjustSaturation" then
    .ok (AdjustSaturation ops input 40)
  else if operation = "all" then
    let resized := Resize ops input 200 0
    let output := New 400 400 transparent
    let output := Paste output (Blur ops resized 1.5) ⟨0, 0⟩
    let output := Paste output (Grayscale ops resized) ⟨0, 200⟩
    let output := Paste output (Invert resized) ⟨200, 0⟩
    let output := Paste output (AdjustSaturation ops resized 40) ⟨200, 200⟩
    .ok output
  else
    .error ("non expected operation: " ++ operation)

/-- Pixel operations that leave every colour as it is, for evaluating the pipeline on
concrete inputs. -/
def idOps : PixelOps :=
  { resample := fun img _ _ x y => img.px x y
    blur := fun _ img x y => img.px x y
    grayscale := fun p => p
    saturation := fun _ p => p }

/-! ## `lambdaModify/imageModify.go` : `handler`

### The regular expression `(.*)\.(jpg|jpeg|png|PNG|JPG|JPEG)`

`FindStringSubmatch` returns the leftmost match, and among the matches that start there
the one a backtracking search finds first: the star is greedy, the alternatives are
tried in the order written.  The dot of `.*` matches every character but the line feed. -/

/-- The alternatives of the second group, in the order written. -/
def extensionAlternatives : List (List Char) :=
  ["jpg".data, "jpeg".data, "png".data, "PNG".data, "JPG".data, "JPEG".data]

/-- Whether `input` begins with the characters of `lit`. -/
def startsWith : List Char → List Char → Bool
  | [], _ => true
  | _ :: _, [] => false
  | p :: ps, c :: cs => p == c && startsWith ps cs

/-- The group `(jpg|jpeg|png|PNG|JPG|JPEG)` at the head of `input`: the first
alternative, in order, that `input` begins with. -/
def matchAlternatives (input : List Char) : Option (List Char) :=
  extensionAlternatives.find? (fun alt => startsWith alt input)

/-- The tail of the expression after the star, at the head of `input`: a literal dot, then
the second group.  Returns the text of the second group. -/
def matchDotExt : List Char → Option (List Char)
  | [] => none
  | c :: rest => if c = '.' then matchAlternatives rest else none

/-- The whole expression at the head of `input`.  The star first takes one more
character (any but the line feed) and the match is tried from there; only when that
fails is the rest of the expression tried at this point.  Returns the texts of the two
groups. -/
def matchHere : List Char → Option (List Char × List Char)
  | [] => (matchDotExt []).map (fun g2 => ([], g2))
  | c :: rest =>
    match (if c ≠ '\n' then matchHere rest else none) with
    | some (g1, g2) => some (c :: g1, g2)
    | none => (matchDotExt (c :: rest)).map (fun g2 => ([], g2))

/-- The leftmost match of the unanchored expression: the start positions are tried from
left to right. -/
def findFrom : List Char → Option (List Char × List Char)
  | [] => matchHere []
  | c :: rest =>
    match matchHere (c :: rest) with
    | some m => some m
    | none => findFrom rest

/-- The call `re.FindStringSubmatch(s)`: `nil` when there is no match, else the matched
text followed by the texts of the two groups. -/
def FindStringSubmatch (s : String) : List String :=
  match findFrom s.data with
  | none => []
  | some (g1, g2) => [String.mk (g1 ++ '.' :: g2), String.mk g1, String.mk g2]

/-- The call `strings.ToLower(s)` for a text of ASCII letters, which is what the second
group of the expression holds. -/
def toLower (s : String) : String := String.mk (s.data.map Char.toLower)

/-- The predicate `unicode.IsSpace`. -/
def isSpace (c : Char) : Bool :=
  c.toNat = 9 || c.toNat = 10 || c.toNat = 11 || c.toNat = 12 || c.toNat = 13
    || c.toNat = 32 || c.toNat = 0x85 || c.toNat = 0xA0 || c.toNat = 0x1680
    || (0x2000 ≤ c.toNat && c.toNat ≤ 0x200A) || c.toNat = 0x2028 || c.toNat = 0x2029
    || c.toNat = 0x202F || c.toNat = 0x205F || c.toNat = 0x3000

/-- The call `strings.TrimSpace(s)`. -/
def TrimSpace (s : String) : String :=
  String.mk ((s.data.dropWhile isSpace).reverse.dropWhile isSpace).reverse

namespace Modify

/-- The request of the filter handler. -/
structure Event where
  Operation : String
  Base64Image : String
  ImgName : String

/-- The outcomes of the calls the filter handler makes outside its own code. -/
structure World where
  base64Decode : String → Except String Bytes
  pngDecode : Bytes → Except String Image
  jpegDecode : Bytes → Except String Image
  jpegEncode : Image → Except String Bytes
  base64Encode : Bytes → String
  getenv : String → String
  newSession : String → Except String Unit
  upload : String → String → Bytes → Except String String
  ops : PixelOps

/-- What a run of the filter handler leaves: the steps performed, and the pair
`(string, error)` it returns. -/
structure Run where
  effects : List Effect
  value : String
  err : Option String

/-- The handler from `log.Println("Starting upload to S3")` on. -/
def uploadStage (w : World) (tr : List Effect) (imgNameNoExt imgExtension : String)
    (buf : Bytes) (encodedString : String) : Run :=
  let region := w.getenv "AWS_DEFAULT_REGION"
  let tr := tr ++ [.log "Starting upload to S3", .getenv "AWS_DEFAULT_REGION",
    .newSession region]
  match w.newSession region with
  | .error _ =>
    ⟨tr ++ [.log "Cannot connect to S3 bucket, image not uploaded"], encodedString, none⟩
  | .ok _ =>
    let key := TrimSpace imgNameNoExt ++ "-modified." ++ imgExtension
    let bucketName := w.getenv "BUCKET_FOR_SAVING_IMG"
    let tr := tr ++ [.getenv "BUCKET_FOR_SAVING_IMG"]
    if bucketName = "" then
      ⟨tr ++ [.log "Cannot find bucket name, specify BUCKET_FOR_SAVING_IMG env"],
        encodedString, none⟩
    else
      let tr := tr ++ [.upload bucketName key buf]
      match w.upload bucketName key buf with
      | .error err => ⟨tr ++ [.log ("Failed to upload: " ++ err)], encodedString, none⟩
      | .ok location =>
        ⟨tr ++ [.log ("Successfully uploaded to: " ++ location)], encodedString, none⟩

/-- The handler from `log.Println("Modifying image")` on. -/
def modifyStage (w : World) (tr : List Effect) (imgNameNoExt : String) (img : Image)
    (operation : String) : Run :=
  let tr := tr ++ [.log "Modifying image", .imageModify operation]
  match imageModify w.ops img operation with
  | .error err => ⟨tr, "", some ("cannot modify image, " ++ err)⟩
  | .ok newImg =>
    let tr := tr ++ [.log "Encoding image to jpg", .jpegEncode]
    let imgExtension := "jpg"
    match w.jpegEncode newImg with
    | .error err => ⟨tr, "", some (imgExtension ++ " encoding error: " ++ err)⟩
    | .ok buf => uploadStage w tr imgNameNoExt imgExtension buf (w.base64Encode buf)

/-- The handler from the check `if err != nil` that follows the decoder `switch` on. -/
def decodedStage (w : World) (tr : List Effect) (imgNameNoExt imgExtension : String)
    (decoded : Except String Image) (operation : String) : Run :=
  match decoded with
  | .error err => ⟨tr, "", some (imgExtension ++ " decode error: " ++ err)⟩
  | .ok img => modifyStage w tr imgNameNoExt img operation

/-- The function `handler` of `imageModify.go`. -/
def handler (w : World) (event : Event) : Run :=
  let tr := [Effect.log ("Starting processing image: " ++ event.ImgName)]
  let m := FindStringSubmatch event.ImgName
  if m.length ≠ 3 then
    ⟨tr, "", some "cannot extract image extention"⟩
  else
    let imgNameNoExt := m.getD 1 ""
    let imgExtension := m.getD 2 ""
    let tr := tr ++ [.log "Decoding to Image", .base64Decode event.Base64Image]
    match w.base64Decode event.Base64Image with
    | .error err =>
      ⟨tr, "", some ("cannot decode 64bytes image string, incorrect input image, err: "
        ++ err)⟩
    | .ok imgBytes =>
      if toLower imgExtension = "png" then
        decodedStage w (tr ++ [.pngDecode imgBytes]) imgNameNoExt imgExtension
          (w.pngDecode imgBytes) event.Operation
      else if toLower imgExtension = "jpeg" ∨ toLower imgExtension = "jpg" then
        decodedStage w (tr ++ [.jpegDecode imgBytes]) imgNameNoExt imgExtension
          (w.jpegDecode imgBytes) event.Operation
      else
        ⟨tr, "", some ("non expected image extension, got: " ++ imgExtension
          ++ ", expected: png, jpg, jpeg")⟩

/-- A world in which every call succeeds: the decoders return a grey 10 by 10 image, the
encoder one byte. -/
def okWorld : World :=
  { base64Decode := fun _ => .ok [1]
    pngDecode := fun _ => .ok (grey 10 10)
    jpegDecode := fun _ => .ok (grey 10 10)
    jpegEncode := fun _ => .ok [2]
    base64Encode := fun _ => "Ag=="
    getenv := fun name => if name = "BUCKET_FOR_SAVING_IMG" then "out" else "eu-west-1"
    newSession := fun _ => .ok ()
    upload := fun _ _ _ => .ok "s3://out"
    ops := idOps }

/-- The text after the last dot of a name, when the name has a dot. -/
def afterLastDot : List Char → Option (List Char)
  | [] => none
  | c :: rest =>
    match afterLastDot rest with
    | some e => some e
    | none => if c = '.' then some rest else none

/-- The shape `<name>.<ext>` with `ext` one of jpg, jpeg, png as the extension of the
file, letters compared without regard to case: the text after the last dot, in lower
case, is one of the three. -/
def hasImageExtension (name : String) : Bool :=
  match afterLastDot name.data with
  | none => false
  | some e => decide (toLower (String.mk e) ∈ ["jpg", "jpeg", "png"])

/-- A dot directly followed by one of the six spellings of the expression occurs in the
text. -/
def DotExtOccurs (s : List Char) : Prop :=
  ∃ pre ext post, ext ∈ extensionAlternatives ∧ s = pre ++ '.' :: ext ++ post

end Modify

/-! ## Theorems -/

theorem pasteLoop_size (width d : Nat) (images : List Image) :
    ∀ (k : Nat) (dst : Image),
      (pasteLoop width d k images dst).w = dst.w ∧ (pasteLoop width d k images dst).h = dst.h := by
  induction images with
  | nil => intro k dst; exact ⟨rfl, rfl⟩
  | cons v rest ih =>
    intro k dst
    have := ih (k + 1) (Paste dst v (pastePos width d k))
    simpa [pasteLoop, Paste] using this

theorem pasteLoop_eq_foldl (width d : Nat) (images : List Image) :
    ∀ (k : Nat) (dst : Image),
      pasteLoop width d k images dst
        = (List.enumFrom k images).foldl
            (fun acc kv => Paste acc kv.2 (pastePos width d kv.1)) dst := by
  induction images with
  | nil => intro k dst; rfl
  | cons v rest ih =>
    intro k dst
    simp [pasteLoop, List.enumFrom, ih]

theorem canvasSize_width (n : Nat) : (canvasSize n).1 = 2100 := by
  unfold canvasSize
  split_ifs <;> first | rfl | omega

theorem imageCombine_size (images : List Image) (a b : Nat)
    (hc : canvasSize images.length = (a, b)) (ha : a ≠ 0) (hb : b ≠ 0) :
    (imageCombine images).w = a ∧ (imageCombine images).h = b := by
  have h := pasteLoop_size (canvasSize images.length).1 5 images 0
    (New (canvasSize images.length).1 (canvasSize images.length).2 transparent)
  unfold imageCombine
  simp only [] at h ⊢
  rw [h.1, h.2, hc]
  simp [New, ha, hb]

/-- C1. Whatever the images are, the canvas returned by `imageCombine` for `N` images is
2100 by 2100 when `N ≤ 25`, 2100 by 4200 when `26 ≤ N ≤ 50` and 2100 by 6300 when
`51 ≤ N ≤ 75`; and a paste never changes the size of the canvas it is given. -/
theorem imageCombine_canvas_size (images : List Image) :
    (images.length ≤ 25 →
        (imageCombine images).w = 2100 ∧ (imageCombine images).h = 2100)
    ∧ (26 ≤ images.length ∧ images.length ≤ 50 →
        (imageCombine images).w = 2100 ∧ (imageCombine images).h = 4200)
    ∧ (51 ≤ images.length ∧ images.length ≤ 75 →
        (imageCombine images).w = 2100 ∧ (imageCombine images).h = 6300)
    ∧ (∀ (dst v : Image) (pos : Point),
        (Paste dst v pos).w = dst.w ∧ (Paste dst v pos).h = dst.h) := by
  refine ⟨fun h => ?_, fun h => ?_, fun h => ?_, fun _ _ _ => ⟨rfl, rfl⟩⟩
  · refine imageCombine_size images _ _ ?_ (by decide) (by decide)
    unfold canvasSize; rw [if_pos h]
  · refine imageCombine_size images _ _ ?_ (by decide) (by decide)
    unfold canvasSize; rw [if_neg (by omega), if_pos (by omega)]
  · refine imageCombine_size images _ _ ?_ (by decide) (by decide)
    unfold canvasSize; rw [if_neg (by omega), if_neg (by omega), if_pos (by omega)]

theorem pasteLoop_append (width d : Nat) (xs : List Image) (v : Image) :
    ∀ (k : Nat) (dst : Image),
      pasteLoop width d k (xs ++ [v]) dst
        = Paste (pasteLoop width d k xs dst) v (pastePos width d (k + xs.length)) := by
  induction xs with
  | nil => intro k dst; simp [pasteLoop]
  | cons x rest ih =>
    intro k dst
    have h := ih (k + 1) (Paste dst x (pastePos width d k))
    rw [show k + 1 + rest.length = k + (rest.length + 1) by omega] at h
    simpa only [List.cons_append, pasteLoop, List.length_cons] using h

theorem pastePos_2100 (k : Nat) :
    pastePos 2100 5 k = ⟨(k % 5) * 420, (k / 5) * 420⟩ := by
  simp only [pastePos, Point.mk.injEq]
  constructor <;> ring

theorem pastePos_eq (n k : Nat) :
    pastePos (canvasSize n).1 5 k = ⟨(k % 5) * 420, (k / 5) * 420⟩ := by
  rw [canvasSize_width, pastePos_2100]

/-- C2. For every sequence of images, `imageCombine` is the left-to-right run of one
paste per image onto the fresh canvas, the image of 0-based index `k` being pasted with
its top-left corner at `((k mod 5) * 420, (k div 5) * 420)` in every tier: the canvas
after `k + 1` iterations is the canvas after `k` iterations with image `k` pasted at that
point.  A paste copies the image at its native size: the pixel `(i, j)` of the image
lands on `(pos.X + i, pos.Y + j)` wherever that lies on the canvas, and every pixel
outside the rectangle of the image keeps its value. -/
theorem imageCombine_paste_offsets (images : List Image) :
    imageCombine images
      = (List.enum images).foldl
          (fun canvas kv => Paste canvas kv.2 ⟨(kv.1 % 5) * 420, (kv.1 / 5) * 420⟩)
          (New 2100 (canvasSize images.length).2 transparent)
    ∧ imageCombine images
      = pasteLoop (canvasSize images.length).1 5 0 (images.take images.length)
          (New 2100 (canvasSize images.length).2 transparent)
    ∧ (∀ (k : Nat) (hk : k < images.length),
        pasteLoop (canvasSize images.length).1 5 0 (images.take (k + 1))
            (New 2100 (canvasSize images.length).2 transparent)
          = Paste
              (pasteLoop (canvasSize images.length).1 5 0 (images.take k)
                (New 2100 (canvasSize images.length).2 transparent))
              (images.get ⟨k, hk⟩) ⟨(k % 5) * 420, (k / 5) * 420⟩)
    ∧ (∀ (canvas v : Image) (pos : Point) (i j : Nat),
        i < v.w → j < v.h → pos.X + i < canvas.w → pos.Y + j < canvas.h →
          (Paste canvas v pos).px (pos.X + i) (pos.Y + j) = v.px i j)
    ∧ (∀ (canvas v : Image) (pos : Point) (x y : Nat),
        ¬ (pos.X ≤ x ∧ x < pos.X + v.w ∧ pos.Y ≤ y ∧ y < pos.Y + v.h) →
          (Paste canvas v pos).px x y = canvas.px x y) := by
  refine ⟨?_, ?_, ?_, ?_, ?_⟩
  · unfold imageCombine
    simp only [pasteLoop_eq_foldl, canvasSize_width, pastePos_2100, List.enum]
  · unfold imageCombine
    simp only [List.take_length, canvasSize_width]
  · intro k hk
    have ht : images.take (k + 1) = images.take k ++ [images.get ⟨k, hk⟩] := by
      rw [List.take_succ, List.getElem?_eq_getElem hk]
      rfl
    rw [ht, pasteLoop_append, pastePos_eq]
    simp [List.length_take, Nat.min_eq_left (Nat.le_of_lt hk)]
  · intro canvas v pos i j hi hj hx hy
    simp only [Paste]
    rw [if_pos ⟨by omega, by omega, by omega, by omega, hx, hy⟩]
    simp
  · intro canvas v pos x y hout
    simp only [Paste]
    rw [if_neg]
    intro hin
    exact hout ⟨hin.1, hin.2.1, hin.2.2.1, hin.2.2.2.1⟩

/-- C10. For `N ≤ 75` and `k < N` the 420 by 420 cell of index `k` lies inside the canvas
chosen for `N`; the cells of two distinct indices share no pixel; and for `N` equal to
25, 50 or 75 the `N` cells cover the canvas exactly: a pixel lies on the canvas if and
only if it lies in the cell of some `k < N`. -/
theorem cells_inside_disjoint_cover (N : Nat) (hN : N ≤ 75) :
    (∀ k, k < N →
        (pastePos (canvasSize N).1 5 k).X = (k % 5) * 420
        ∧ (pastePos (canvasSize N).1 5 k).Y = (k / 5) * 420
        ∧ (canvasSize N).1 / 5 = 420
        ∧ (pastePos (canvasSize N).1 5 k).X + 420 ≤ (canvasSize N).1
        ∧ (canvasSize N).1 = 2100
        ∧ (pastePos (canvasSize N).1 5 k).Y + 420 ≤ (canvasSize N).2)
    ∧ (∀ k₁ k₂, k₁ < N → k₂ < N → k₁ ≠ k₂ →
        ∀ x y, ¬ (inCell (canvasSize N).1 5 k₁ x y ∧ inCell (canvasSize N).1 5 k₂ x y))
    ∧ (N = 25 ∨ N = 50 ∨ N = 75 →
        ∀ x y, (x < (canvasSize N).1 ∧ y < (canvasSize N).2)
          ↔ ∃ k, k < N ∧ inCell (canvasSize N).1 5 k x y) := by
  have hw := canvasSize_width N
  refine ⟨?_, ?_, ?_⟩
  · intro k hk
    rw [pastePos_eq, hw]
    refine ⟨rfl, rfl, rfl, by simp only []; omega, rfl, ?_⟩
    simp only [canvasSize]
    split_ifs <;> simp only [] <;> omega
  · intro k₁ k₂ _ _ hne x y
    simp only [inCell, hw, pastePos_2100]
    omega
  · intro hfull x y
    simp only [inCell, hw, pastePos_2100]
    have hh : (canvasSize N).2 = 84 * N := by
      rcases hfull with h | h | h <;> subst h <;> decide
    rw [hh]
    constructor
    · rintro ⟨hx, hy⟩
      refine ⟨(y / 420) * 5 + x / 420, by omega, ?_⟩
      omega
    · rintro ⟨k, hk, h1, h2, h3, h4⟩
      omega

theorem cells_inside_disjoint_cover_full :
    (∀ k, k < 75 →
        (pastePos (canvasSize 75).1 5 k).X = (k % 5) * 420
        ∧ (pastePos (canvasSize 75).1 5 k).Y = (k / 5) * 420
        ∧ (canvasSize 75).1 / 5 = 420
        ∧ (pastePos (canvasSize 75).1 5 k).X + 420 ≤ (canvasSize 75).1
        ∧ (canvasSize 75).1 = 2100
        ∧ (pastePos (canvasSize 75).1 5 k).Y + 420 ≤ (canvasSize 75).2)
    ∧ (∀ k₁ k₂, k₁ < 75 → k₂ < 75 → k₁ ≠ k₂ →
        ∀ x y, ¬ (inCell (canvasSize 75).1 5 k₁ x y ∧ inCell (canvasSize 75).1 5 k₂ x y))
    ∧ (75 = 25 ∨ 75 = 50 ∨ 75 = 75 →
        ∀ x y, (x < (canvasSize 75).1 ∧ y < (canvasSize 75).2)
          ↔ ∃ k, k < 75 ∧ inCell (canvasSize 75).1 5 k x y) :=
  cells_inside_disjoint_cover 75 (by decide)

theorem cropCenter_square (img : Image) (m : Nat) (hm : 1 ≤ m) (hw : m ≤ img.w)
    (hh : m ≤ img.h) : (CropCenter img m m).w = m ∧ (CropCenter img m m).h = m := by
  have hx : ∀ a : Int, 0 ≤ a → 0 ≤ Int.tdiv a 2 ∧ Int.tdiv a 2 ≤ a := by
    intro a ha
    rw [Int.tdiv_eq_ediv ha (by decide)]
    omega
  have h1 := hx ((img.w : Int) - (m : Int)) (by omega)
  have h2 := hx ((img.h : Int) - (m : Int)) (by omega)
  simp only [CropCenter]
  generalize Int.tdiv ((img.w : Int) - (m : Int)) 2 = x0 at h1 ⊢
  generalize Int.tdiv ((img.h : Int) - (m : Int)) 2 = y0 at h2 ⊢
  rw [if_neg (by omega)]
  simp only []
  omega

theorem resize_400 (ops : PixelOps) (img : Image) (hw : 1 ≤ img.w) (hh : 1 ≤ img.h) :
    (Resize ops img 400 400).w = 400 ∧ (Resize ops img 400 400).h = 400 := by
  simp only [Resize]
  rw [if_neg (by omega), if_neg (by omega)]
  exact ⟨rfl, rfl⟩

/-- C3. For every input image that is at least one pixel wide and one pixel high, and
for each of the operations blur, grayscale, invert, adjustSaturation and all,
`imageModify` succeeds and the image it returns is exactly 400 wide and 400 high. -/
theorem imageModify_output_400 (ops : PixelOps) (input : Image) (operation : String)
    (hw : 1 ≤ input.w) (hh : 1 ≤ input.h) (hop : operation ∈ operations) :
    ∃ out, imageModify ops input operation = .ok out ∧ out.w = 400 ∧ out.h = 400 := by
  have hcrop : 1 ≤ (if input.w ≤ input.h then CropCenter input input.w input.w
        else CropCenter input input.h input.h).w
      ∧ 1 ≤ (if input.w ≤ input.h then CropCenter input input.w input.w
        else CropCenter input input.h input.h).h := by
    split_ifs with hle
    · have := cropCenter_square input input.w hw (Nat.le_refl _) hle
      omega
    · have := cropCenter_square input input.h hh (by omega) (Nat.le_refl _)
      omega
  have hres := resize_400 ops _ hcrop.1 hcrop.2
  simp only [operations, List.mem_cons, List.mem_singleton, List.not_mem_nil, or_false] at hop
  rcases hop with h | h | h | h | h <;> subst h
  · exact ⟨_, rfl, hres⟩
  · exact ⟨_, rfl, hres⟩
  · exact ⟨_, rfl, hres⟩
  · exact ⟨_, rfl, hres⟩
  · exact ⟨_, rfl, rfl, rfl⟩

theorem imageModify_output_400_examples :
    (∃ out, imageModify idOps (grey 100 300) "blur" = .ok out ∧ out.w = 400 ∧ out.h = 400)
    ∧ (∃ out, imageModify idOps (grey 300 100) "all" = .ok out ∧ out.w = 400 ∧ out.h = 400)
    ∧ (∃ out, imageModify idOps (grey 500 500) "invert" = .ok out
        ∧ out.w = 400 ∧ out.h = 400) :=
  ⟨imageModify_output_400 idOps (grey 100 300) "blur" (by decide) (by decide) (by decide),
   imageModify_output_400 idOps (grey 300 100) "all" (by decide) (by decide) (by decide),
   imageModify_output_400 idOps (grey 500 500) "invert" (by decide) (by decide) (by decide)⟩

/-- C4. For every input image, an operation tag that is none of blur, grayscale, invert,
adjustSaturation, all makes `imageModify` fail with the error
`non expected operation: <tag>`, which names the tag, and no image is returned; for each
of the five tags `imageModify` returns an image and no error. -/
theorem imageModify_unknown_operation (ops : PixelOps) (input : Image) (operation : String) :
    (operation ∉ operations →
        imageModify ops input operation = .error ("non expected operation: " ++ operation))
    ∧ (operation ∈ operations → ∃ out, imageModify ops input operation = .ok out) := by
  simp only [operations, List.mem_cons, List.mem_singleton, List.not_mem_nil, or_false]
  constructor
  · intro h
    simp only [not_or] at h
    simp [imageModify, h.1, h.2.1, h.2.2.1, h.2.2.2.1, h.2.2.2.2]
  · intro h
    rcases h with h | h | h | h | h <;> subst h <;> exact ⟨_, rfl⟩

theorem imageModify_sharpen :
    imageModify idOps (grey 100 300) "sharpen"
      = .error ("non expected operation: " ++ "sharpen") :=
  (imageModify_unknown_operation idOps (grey 100 300) "sharpen").1 (by decide)

/-! ### The regular expression -/

theorem startsWith_iff (lit : List Char) :
    ∀ input : List Char, startsWith lit input = true ↔ ∃ post, input = lit ++ post := by
  induction lit with
  | nil => intro input; simp [startsWith]
  | cons p ps ih =>
    intro input
    cases input with
    | nil => simp [startsWith]
    | cons c cs =>
      simp only [startsWith, Bool.and_eq_true, beq_iff_eq, ih, List.cons_append,
        List.cons.injEq]
      constructor
      · rintro ⟨rfl, post, rfl⟩
        exact ⟨post, rfl, rfl⟩
      · rintro ⟨post, rfl, rfl⟩
        exact ⟨rfl, post, rfl⟩

theorem matchAlternatives_some (input g : List Char) (h : matchAlternatives input = some g) :
    g ∈ extensionAlternatives ∧ ∃ post, input = g ++ post := by
  unfold matchAlternatives at h
  have hp : (fun alt => startsWith alt input) g = true :=
    List.find?_some (p := fun alt => startsWith alt input) h
  exact ⟨List.mem_of_find?_eq_some h, (startsWith_iff g input).1 hp⟩

theorem matchAlternatives_ne_none (ext post : List Char) (h : ext ∈ extensionAlternatives) :
    matchAlternatives (ext ++ post) ≠ none := by
  unfold matchAlternatives
  intro hnone
  rw [List.find?_eq_none] at hnone
  exact hnone ext h ((startsWith_iff ext _).2 ⟨post, rfl⟩)

theorem matchDotExt_some (input g : List Char) (h : matchDotExt input = some g) :
    g ∈ extensionAlternatives ∧ ∃ post, input = '.' :: g ++ post := by
  cases input with
  | nil => simp [matchDotExt] at h
  | cons c rest =>
    simp only [matchDotExt] at h
    split_ifs at h with hc
    obtain ⟨hg, post, hpost⟩ := matchAlternatives_some rest g h
    exact ⟨hg, post, by rw [hc, hpost]; rfl⟩

theorem matchHere_some :
    ∀ (input g1 g2 : List Char), matchHere input = some (g1, g2) →
      g2 ∈ extensionAlternatives ∧ ∃ post, input = g1 ++ '.' :: g2 ++ post := by
  intro input
  induction input with
  | nil => intro g1 g2 h; simp [matchHere, matchDotExt] at h
  | cons c rest ih =>
    intro g1 g2 h
    rw [matchHere] at h
    split at h
    · next a b heq =>
      have hrest : matchHere rest = some (a, b) := by
        split_ifs at heq
        exact heq
      simp only [Option.some.injEq, Prod.mk.injEq] at h
      obtain ⟨hg, post, hpost⟩ := ih a b hrest
      refine ⟨h.2 ▸ hg, post, ?_⟩
      rw [← h.1, ← h.2, hpost]
      rfl
    · simp only [Option.map_eq_some'] at h
      obtain ⟨g, hg, hpair⟩ := h
      simp only [Prod.mk.injEq] at hpair
      obtain ⟨hmem, post, hpost⟩ := matchDotExt_some _ g hg
      refine ⟨hpair.2 ▸ hmem, post, ?_⟩
      rw [← hpair.1, ← hpair.2, hpost]
      rfl

theorem matchHere_dot_ne_none (ext post : List Char) (h : ext ∈ extensionAlternatives) :
    matchHere ('.' :: ext ++ post) ≠ none := by
  have hne := matchAlternatives_ne_none ext post h
  intro hnone
  simp only [List.cons_append] at hnone
  rw [matchHere] at hnone
  split at hnone
  · simp at hnone
  · simp only [matchDotExt, if_true, Option.map_eq_none'] at hnone
    exact hne hnone

theorem findFrom_some :
    ∀ (input g1 g2 : List Char), findFrom input = some (g1, g2) →
      g2 ∈ extensionAlternatives ∧ ∃ pre post, input = pre ++ (g1 ++ '.' :: g2 ++ post) := by
  intro input
  induction input with
  | nil =>
    intro g1 g2 h
    simp [findFrom, matchHere, matchDotExt] at h
  | cons c rest ih =>
    intro g1 g2 h
    rw [findFrom] at h
    split at h
    · next m hm =>
      simp only [Option.some.injEq] at h
      subst h
      obtain ⟨hg, post, hpost⟩ := matchHere_some _ g1 g2 hm
      exact ⟨hg, [], post, hpost⟩
    · obtain ⟨hg, pre, post, hpost⟩ := ih g1 g2 h
      exact ⟨hg, c :: pre, post, by rw [hpost]; rfl⟩

theorem findFrom_append_ne_none (pre t : List Char) (h : findFrom t ≠ none) :
    findFrom (pre ++ t) ≠ none := by
  induction pre with
  | nil => exact h
  | cons c rest ih =>
    simp only [List.cons_append]
    rw [findFrom]
    split
    · simp
    · exact ih

theorem findFrom_eq_none_iff (input : List Char) :
    findFrom input = none ↔ ¬ Modify.DotExtOccurs input := by
  constructor
  · rintro hnone ⟨pre, ext, post, hext, rfl⟩
    rw [show pre ++ '.' :: ext ++ post = pre ++ ('.' :: ext ++ post) by simp] at hnone
    refine findFrom_append_ne_none pre _ ?_ hnone
    have hm := matchHere_dot_ne_none ext post hext
    simp only [List.cons_append] at hm ⊢
    rw [findFrom]
    split
    · simp
    · next hn => exact absurd hn hm
  · intro hno
    cases hf : findFrom input with
    | none => rfl
    | some m =>
      obtain ⟨g1, g2⟩ := m
      obtain ⟨hg, pre, post, hpost⟩ := findFrom_some input g1 g2 hf
      exact absurd ⟨pre ++ g1, g2, post, hg, by rw [hpost]; simp⟩ hno

theorem matchHere_ext_none (ext : List Char) (h : ext ∈ extensionAlternatives) :
    matchHere ext = none := by
  simp only [extensionAlternatives, List.mem_cons, List.mem_singleton, List.not_mem_nil,
    or_false] at h
  rcases h with h | h | h | h | h | h <;> subst h <;> decide

theorem matchAlternatives_ext (ext : List Char) (h : ext ∈ extensionAlternatives) :
    matchAlternatives ext = some ext := by
  simp only [extensionAlternatives, List.mem_cons, List.mem_singleton, List.not_mem_nil,
    or_false] at h
  rcases h with h | h | h | h | h | h <;> subst h <;> decide

theorem matchHere_stem (ext : List Char) (h : ext ∈ extensionAlternatives) :
    ∀ stem : List Char, (∀ c ∈ stem, c ≠ '\n') →
      matchHere (stem ++ '.' :: ext) = some (stem, ext) := by
  intro stem
  induction stem with
  | nil =>
    intro _
    simp only [List.nil_append]
    rw [matchHere, if_pos (by decide), matchHere_ext_none ext h]
    simp [matchDotExt, matchAlternatives_ext ext h]
  | cons c rest ih =>
    intro hnl
    have hc : c ≠ '\n' := hnl c (List.mem_cons_self _ _)
    have hrest := ih (fun d hd => hnl d (List.mem_cons_of_mem _ hd))
    simp only [List.cons_append]
    rw [matchHere, if_pos hc, hrest]

theorem findFrom_stem (stem ext : List Char) (h : ext ∈ extensionAlternatives)
    (hnl : ∀ c ∈ stem, c ≠ '\n') : findFrom (stem ++ '.' :: ext) = some (stem, ext) := by
  have hm := matchHere_stem ext h stem hnl
  cases stem with
  | nil =>
    simp only [List.nil_append] at hm ⊢
    rw [findFrom, hm]
  | cons c rest =>
    simp only [List.cons_append] at hm ⊢
    rw [findFrom, hm]

/-! ### The filter handler -/

theorem uploadStage_effects (w : Modify.World) (tr : List Effect) (a b : String)
    (buf : Bytes) (enc : String) :
    ∃ more, (Modify.uploadStage w tr a b buf enc).effects = tr ++ more := by
  unfold Modify.uploadStage
  simp only []
  split
  · exact ⟨_, by simp only [List.append_assoc]; rfl⟩
  · split_ifs
    · exact ⟨_, by simp only [List.append_assoc]; rfl⟩
    · split <;> exact ⟨_, by simp only [List.append_assoc]; rfl⟩

theorem modifyStage_effects (w : Modify.World) (tr : List Effect) (a : String)
    (img : Image) (operation : String) :
    ∃ more, (Modify.modifyStage w tr a img operation).effects = tr ++ more := by
  unfold Modify.modifyStage
  simp only []
  split
  · exact ⟨_, rfl⟩
  · split
    · exact ⟨_, by simp only [List.append_assoc]; rfl⟩
    · obtain ⟨more, hmore⟩ := uploadStage_effects w
        (tr ++ [.log "Modifying image", .imageModify operation]
          ++ [.log "Encoding image to jpg", .jpegEncode]) a "jpg" _ (w.base64Encode _)
      exact ⟨_, by rw [hmore]; simp only [List.append_assoc]; rfl⟩

theorem decodedStage_effects (w : Modify.World) (tr : List Effect) (a b : String)
    (decoded : Except String Image) (operation : String) :
    ∃ more, (Modify.decodedStage w tr a b decoded operation).effects = tr ++ more := by
  unfold Modify.decodedStage
  split
  · exact ⟨[], by simp⟩
  · exact modifyStage_effects w tr a _ operation

theorem findStringSubmatch_of_none (name : String) (h : findFrom name.data = none) :
    FindStringSubmatch name = [] := by
  unfold FindStringSubmatch
  rw [h]

theorem findStringSubmatch_length (name : String) (h : findFrom name.data ≠ none) :
    (FindStringSubmatch name).length = 3 := by
  unfold FindStringSubmatch
  split
  · next hn => exact absurd hn h
  · rfl

theorem handler_effects_of_match (w : Modify.World) (event : Modify.Event)
    (h : (FindStringSubmatch event.ImgName).length = 3) :
    ∃ more, (Modify.handler w event).effects
      = [.log ("Starting processing image: " ++ event.ImgName), .log "Decoding to Image",
          .base64Decode event.Base64Image] ++ more := by
  unfold Modify.handler
  simp only []
  rw [if_neg (by rw [h]; decide)]
  split
  · exact ⟨[], by simp⟩
  · split_ifs
    · obtain ⟨more, hmore⟩ := decodedStage_effects w
        ([Effect.log ("Starting processing image: " ++ event.ImgName)]
          ++ [.log "Decoding to Image", .base64Decode event.Base64Image] ++ [.pngDecode _])
        ((FindStringSubmatch event.ImgName).getD 1 "")
        ((FindStringSubmatch event.ImgName).getD 2 "") (w.pngDecode _) event.Operation
      exact ⟨_, by rw [hmore]; simp only [List.append_assoc, List.cons_append,
        List.nil_append]; rfl⟩
    · obtain ⟨more, hmore⟩ := decodedStage_effects w
        ([Effect.log ("Starting processing image: " ++ event.ImgName)]
          ++ [.log "Decoding to Image", .base64Decode event.Base64Image] ++ [.jpegDecode _])
        ((FindStringSubmatch event.ImgName).getD 1 "")
        ((FindStringSubmatch event.ImgName).getD 2 "") (w.jpegDecode _) event.Operation
      exact ⟨_, by rw [hmore]; simp only [List.append_assoc, List.cons_append,
        List.nil_append]; rfl⟩
    · exact ⟨[], by simp⟩

/-- C8, as amended. For every file name in which no dot is directly followed by one of
the spellings jpg, jpeg, png, PNG, JPG, JPEG (a name without a dot such as `photo`, or
`photo.txt`), the filter handler returns the error `cannot extract image extention` and
the empty string, and the only step it has performed is its first log line: nothing has
been base64-decoded, decoded as an image or filtered. -/
theorem handler_rejects_name_without_extension (w : Modify.World) (event : Modify.Event)
    (h : ¬ Modify.DotExtOccurs event.ImgName.data) :
    (Modify.handler w event).err = some "cannot extract image extention"
    ∧ (Modify.handler w event).value = ""
    ∧ (Modify.handler w event).effects
        = [.log ("Starting processing image: " ++ event.ImgName)] := by
  have hnone := findStringSubmatch_of_none event.ImgName
    ((findFrom_eq_none_iff event.ImgName.data).2 h)
  unfold Modify.handler
  simp only [hnone]
  exact ⟨rfl, rfl, rfl⟩

theorem handler_rejects_photo_and_photo_txt :
    ((Modify.handler Modify.okWorld ⟨"blur", "", "photo"⟩).err
        = some "cannot extract image extention"
      ∧ (Modify.handler Modify.okWorld ⟨"blur", "", "photo"⟩).value = ""
      ∧ (Modify.handler Modify.okWorld ⟨"blur", "", "photo"⟩).effects
          = [.log ("Starting processing image: " ++ "photo")])
    ∧ ((Modify.handler Modify.okWorld ⟨"blur", "", "photo.txt"⟩).err
        = some "cannot extract image extention"
      ∧ (Modify.handler Modify.okWorld ⟨"blur", "", "photo.txt"⟩).value = ""
      ∧ (Modify.handler Modify.okWorld ⟨"blur", "", "photo.txt"⟩).effects
          = [.log ("Starting processing image: " ++ "photo.txt")]) :=
  ⟨handler_rejects_name_without_extension Modify.okWorld ⟨"blur", "", "photo"⟩
      ((findFrom_eq_none_iff _).1 (by decide)),
   handler_rejects_name_without_extension Modify.okWorld ⟨"blur", "", "photo.txt"⟩
      ((findFrom_eq_none_iff _).1 (by decide))⟩

/-- C8, as stated, fails. The name `photo.png.txt` does not have the shape `<name>.<ext>`
with jpg, jpeg or png as its extension (the text after its last dot is `txt`), yet the
expression, which is not anchored, matches `photo.png` inside it: the handler reports no
error, base64-decodes the payload, decodes it as PNG, filters it and uploads the
result as `photo-modified.jpg`. -/
theorem handler_accepts_inner_extension :
    Modify.hasImageExtension "photo.png.txt" = false
    ∧ FindStringSubmatch "photo.png.txt" = ["photo.png", "photo", "png"]
    ∧ (Modify.handler Modify.okWorld ⟨"blur", "", "photo.png.txt"⟩).err = none
    ∧ (Modify.handler Modify.okWorld ⟨"blur", "", "photo.png.txt"⟩).value = "Ag=="
    ∧ (Modify.handler Modify.okWorld ⟨"blur", "", "photo.png.txt"⟩).effects
        = [.log "Starting processing image: photo.png.txt", .log "Decoding to Image",
            .base64Decode "", .pngDecode [1], .log "Modifying image", .imageModify "blur",
            .log "Encoding image to jpg", .jpegEncode, .log "Starting upload to S3",
            .getenv "AWS_DEFAULT_REGION", .newSession "eu-west-1",
            .getenv "BUCKET_FOR_SAVING_IMG", .upload "out" "photo-modified.jpg" [2],
            .log "Successfully uploaded to: s3://out"] := by
  refine ⟨by decide, by decide, by decide, by decide, ?_⟩
  rfl

theorem ext_data_mem (ext : String)
    (hext : ext ∈ ["jpg", "jpeg", "png", "PNG", "JPG", "JPEG"]) :
    ext.data ∈ extensionAlternatives
    ∧ (toLower ext = "png" ∨ toLower ext = "jpeg" ∨ toLower ext = "jpg")
    ∧ (toLower ext = "png" ↔ (ext = "png" ∨ ext = "PNG")) := by
  simp only [List.mem_cons, List.mem_singleton, List.not_mem_nil, or_false] at hext
  rcases hext with h | h | h | h | h | h <;> subst h <;> decide

theorem handler_decoder_of_match (w : Modify.World) (event : Modify.Event)
    (stem ext : String) (imgBytes : Bytes)
    (hm : FindStringSubmatch event.ImgName = [event.ImgName, stem, ext])
    (hlow : toLower ext = "png" ∨ toLower ext = "jpeg" ∨ toLower ext = "jpg")
    (hb : w.base64Decode event.Base64Image = .ok imgBytes) :
    ∃ more, (Modify.handler w event).effects
      = [.log ("Starting processing image: " ++ event.ImgName), .log "Decoding to Image",
          .base64Decode event.Base64Image,
          if toLower ext = "png" then .pngDecode imgBytes else .jpegDecode imgBytes]
        ++ more := by
  unfold Modify.handler
  simp only [hm, hb, List.length_cons, List.length_nil, List.getD_cons_succ,
    List.getD_cons_zero]
  rw [if_neg (by decide)]
  by_cases hpng : toLower ext = "png"
  · rw [if_pos hpng, if_pos hpng]
    obtain ⟨more, hmore⟩ := decodedStage_effects w
      ([Effect.log ("Starting processing image: " ++ event.ImgName)]
        ++ [.log "Decoding to Image", .base64Decode event.Base64Image]
        ++ [.pngDecode imgBytes]) stem ext (w.pngDecode imgBytes) event.Operation
    exact ⟨more, by rw [hmore]; rfl⟩
  · have hj : toLower ext = "jpeg" ∨ toLower ext = "jpg" := by tauto
    rw [if_neg hpng, if_pos hj, if_neg hpng]
    obtain ⟨more, hmore⟩ := decodedStage_effects w
      ([Effect.log ("Starting processing image: " ++ event.ImgName)]
        ++ [.log "Decoding to Image", .base64Decode event.Base64Image]
        ++ [.jpegDecode imgBytes]) stem ext (w.jpegDecode imgBytes) event.Operation
    exact ⟨more, by rw [hmore]; rfl⟩

/-- C9, as amended. For every file name `<name>.<ext>` whose `ext` is spelled exactly
jpg, jpeg, png, PNG, JPG or JPEG, the extraction of the extension succeeds: the
expression matches and the handler goes on to decode the payload.  When moreover `<name>`
holds no line feed, the extension extracted is `ext`, and the decoder the handler calls
is the PNG decoder when `ext` in lower case is png and the JPEG decoder when it is jpg
or jpeg. -/
theorem handler_accepts_six_spellings (w : Modify.World) (event : Modify.Event)
    (stem ext : String) (hname : event.ImgName = stem ++ "." ++ ext)
    (hext : ext ∈ ["jpg", "jpeg", "png", "PNG", "JPG", "JPEG"]) :
    (FindStringSubmatch event.ImgName).length = 3
    ∧ (∃ more, (Modify.handler w event).effects
        = [.log ("Starting processing image: " ++ event.ImgName), .log "Decoding to Image",
            .base64Decode event.Base64Image] ++ more)
    ∧ (toLower ext = "png" ∨ toLower ext = "jpeg" ∨ toLower ext = "jpg")
    ∧ ((∀ c ∈ stem.data, c ≠ '\n') →
        FindStringSubmatch event.ImgName = [event.ImgName, stem, ext]
        ∧ ∀ imgBytes, w.base64Decode event.Base64Image = .ok imgBytes →
            ∃ more, (Modify.handler w event).effects
              = [.log ("Starting processing image: " ++ event.ImgName),
                  .log "Decoding to Image", .base64Decode event.Base64Image,
                  if toLower ext = "png" then .pngDecode imgBytes
                  else .jpegDecode imgBytes] ++ more) := by
  obtain ⟨hmem, hlow, _⟩ := ext_data_mem ext hext
  have hdata : event.ImgName.data = stem.data ++ '.' :: ext.data := by
    rw [hname]
    simp only [String.data_append, List.append_assoc]
    rfl
  have hlen : (FindStringSubmatch event.ImgName).length = 3 := by
    apply findStringSubmatch_length
    intro hnone
    exact (findFrom_eq_none_iff _).1 hnone ⟨stem.data, ext.data, [], hmem, by rw [hdata]; simp⟩
  refine ⟨hlen, handler_effects_of_match w event hlen, hlow, fun hnl => ?_⟩
  have hm : FindStringSubmatch event.ImgName = [event.ImgName, stem, ext] := by
    unfold FindStringSubmatch
    rw [hdata, findFrom_stem stem.data ext.data hmem hnl]
    simp only [← hdata]
  exact ⟨hm, fun imgBytes hb => handler_decoder_of_match w event stem ext imgBytes hm hlow hb⟩

theorem handler_accepts_upper_case_jpeg :
    (FindStringSubmatch "a.JPEG").length = 3
    ∧ (∃ more, (Modify.handler Modify.okWorld ⟨"all", "", "a.JPEG"⟩).effects
        = [.log ("Starting processing image: " ++ "a.JPEG"), .log "Decoding to Image",
            .base64Decode ""] ++ more)
    ∧ (toLower "JPEG" = "png" ∨ toLower "JPEG" = "jpeg" ∨ toLower "JPEG" = "jpg")
    ∧ ((∀ c ∈ "a".data, c ≠ '\n') →
        FindStringSubmatch "a.JPEG" = ["a.JPEG", "a", "JPEG"]
        ∧ ∀ imgBytes, Modify.okWorld.base64Decode "" = .ok imgBytes →
            ∃ more, (Modify.handler Modify.okWorld ⟨"all", "", "a.JPEG"⟩).effects
              = [.log ("Starting processing image: " ++ "a.JPEG"),
                  .log "Decoding to Image", .base64Decode "",
                  if toLower "JPEG" = "png" then .pngDecode imgBytes
                  else .jpegDecode imgBytes] ++ more) :=
  handler_accepts_six_spellings Modify.okWorld ⟨"all", "", "a.JPEG"⟩ "a" "JPEG" (by decide)
    (by decide)

/-- C9, as stated, fails. In `a.Jpg` the extension equals jpg when case is ignored, yet
the expression lists only the all-lower-case and the all-upper-case spellings: the
handler returns `cannot extract image extention` and decodes nothing.  And the decoder
follows the extension the expression matched, which is not always the last one: in a
name with a line feed, `x.png`, line feed, `y.jpg`, the last extension is jpg and the
handler calls the PNG decoder. -/
theorem handler_rejects_mixed_case :
    (toLower "Jpg" = "jpg"
      ∧ (Modify.handler Modify.okWorld ⟨"blur", "", "a.Jpg"⟩).err
          = some "cannot extract image extention"
      ∧ (Modify.handler Modify.okWorld ⟨"blur", "", "a.Jpg"⟩).effects
          = [.log "Starting processing image: a.Jpg"])
    ∧ ("x.png\ny.jpg" = "x.png\ny" ++ "." ++ "jpg"
      ∧ toLower "jpg" = "jpg"
      ∧ FindStringSubmatch "x.png\ny.jpg" = ["x.png", "x", "png"]
      ∧ (Modify.handler Modify.okWorld ⟨"blur", "", "x.png\ny.jpg"⟩).effects.take 4
          = [.log "Starting processing image: x.png\ny.jpg", .log "Decoding to Image",
              .base64Decode "", .pngDecode [1]]) := by
  refine ⟨⟨by decide, by decide, ?_⟩, by decide, by decide, by decide, ?_⟩
  · rfl
  · rfl

/-! ### Sorting -/

theorem insertBack_perm (less : item → item → Bool) (x : item) (run : List item) :
    (insertBack less x run).Perm (x :: run) := by
  induction run with
  | nil => exact List.Perm.refl _
  | cons p ps ih =>
    simp only [insertBack]
    split_ifs
    · exact (List.Perm.cons p ih).trans (List.Perm.swap x p ps)
    · exact List.Perm.refl _

theorem insertBack_pairwise (less : item → item → Bool)
    (hasym : ∀ a b, less a b = true → less b a = false)
    (htrans : ∀ a b c, less a b = false → less b c = false → less a c = false)
    (x : item) (run : List item) (h : run.Pairwise (fun a b => less a b = false)) :
    (insertBack less x run).Pairwise (fun a b => less a b = false) := by
  induction run with
  | nil => simp [insertBack]
  | cons p ps ih =>
    rw [List.pairwise_cons] at h
    simp only [insertBack]
    split_ifs with hlt
    · rw [List.pairwise_cons]
      refine ⟨fun y hy => ?_, ih h.2⟩
      rcases List.mem_cons.1 ((insertBack_perm less x ps).mem_iff.1 hy) with rfl | hmem
      · exact hasym _ _ hlt
      · exact h.1 y hmem
    · have hxp : less x p = false := by simpa using hlt
      rw [List.pairwise_cons, List.pairwise_cons]
      refine ⟨fun y hy => ?_, h.1, h.2⟩
      rcases List.mem_cons.1 hy with rfl | hmem
      · exact hxp
      · exact htrans x p y hxp (h.1 y hmem)

theorem insertionSort_foldl (less : item → item → Bool)
    (hasym : ∀ a b, less a b = true → less b a = false)
    (htrans : ∀ a b c, less a b = false → less b c = false → less a c = false)
    (xs : List item) :
    ∀ run : List item, run.Pairwise (fun a b => less a b = false) →
      (xs.foldl (fun run x => insertBack less x run) run).Perm (xs ++ run)
      ∧ (xs.foldl (fun run x => insertBack less x run) run).Pairwise
          (fun a b => less a b = false) := by
  induction xs with
  | nil => intro run h; exact ⟨List.Perm.refl _, h⟩
  | cons x rest ih =>
    intro run h
    obtain ⟨hp, hs⟩ := ih (insertBack less x run) (insertBack_pairwise less hasym htrans x run h)
    refine ⟨hp.trans ?_, hs⟩
    have h1 : (rest ++ insertBack less x run).Perm (rest ++ x :: run) :=
      List.Perm.append_left rest (insertBack_perm less x run)
    exact h1.trans (by simp)

theorem gapPass_perm (less : item → item → Bool) (rest : List item) :
    ∀ window : List item, (gapPass less window rest).Perm (window ++ rest) := by
  induction rest with
  | nil => intro window; simp [gapPass]
  | cons c rest ih =>
    intro window
    cases window with
    | nil => simp [gapPass]
    | cons p window =>
      simp only [gapPass]
      split_ifs
      · refine (List.Perm.cons c (ih (window ++ [p]))).trans ?_
        have h1 : (c :: (window ++ [p] ++ rest)).Perm (c :: p :: (window ++ rest)) :=
          List.Perm.cons c (by simp)
        refine h1.trans ((List.Perm.swap p c _).trans ?_)
        exact List.Perm.cons p List.perm_middle.symm
      · refine (List.Perm.cons p (ih (window ++ [c]))).trans ?_
        exact List.Perm.cons p (by simp)

theorem shellInsertionSort_contract : SortSliceContract shellInsertionSort := by
  intro less hasym htrans xs
  unfold shellInsertionSort
  split_ifs with hlen
  · obtain ⟨hp, hs⟩ := insertionSort_foldl less hasym htrans
      (gapPass less (xs.take 6) (xs.drop 6)) [] List.Pairwise.nil
    unfold insertionSort
    constructor
    · refine (List.reverse_perm _).trans (hp.trans ?_)
      rw [List.append_nil]
      exact (gapPass_perm less _ _).trans (by rw [List.take_append_drop])
    · rw [List.pairwise_reverse]
      exact hs
  · refine ⟨List.Perm.refl _, ?_⟩
    match xs, hlen with
    | [], _ => exact List.Pairwise.nil
    | [a], _ => exact List.pairwise_singleton _ _
    | _ :: _ :: _, h => exact absurd (by simp) h

theorem sorted_perm_unique :
    ∀ (l₁ l₂ : List item), l₁.Perm l₂ →
      l₁.Pairwise (fun a b => a.lastModified ≤ b.lastModified) →
      l₂.Pairwise (fun a b => a.lastModified ≤ b.lastModified) →
      (l₂.map (fun o => o.lastModified)).Nodup → l₁ = l₂ := by
  intro l₁
  induction l₁ with
  | nil => intro l₂ hp _ _ _; exact (List.nil_perm.1 hp).symm
  | cons a t₁ ih =>
    intro l₂ hp h1 h2 hnd
    have hmaps : (a :: t₁).map (fun o => o.lastModified) = l₂.map (fun o => o.lastModified) := by
      have s1 : List.Sorted (α := Int) LE.le ((a :: t₁).map (fun o => o.lastModified)) :=
        List.pairwise_map.2 h1
      have s2 : List.Sorted (α := Int) LE.le (l₂.map (fun o => o.lastModified)) :=
        List.pairwise_map.2 h2
      exact List.eq_of_perm_of_sorted (hp.map _) s1 s2
    cases l₂ with
    | nil => exact absurd hp (List.cons_ne_nil _ _ ∘ List.perm_nil.1)
    | cons b t₂ =>
      simp only [List.map_cons, List.cons.injEq] at hmaps
      have hab : a = b :=
        List.inj_on_of_nodup_map hnd (hp.mem_iff.1 (List.mem_cons_self _ _))
          (List.mem_cons_self _ _) hmaps.1
      subst hab
      rw [List.map_cons, List.nodup_cons] at hnd
      rw [ih t₂ (List.Perm.cons_inv hp) (List.pairwise_cons.1 h1).2
        (List.pairwise_cons.1 h2).2 hnd.2]

theorem perm_of_short (l₁ l₂ : List item) (hp : l₁.Perm l₂)
    (hshort : ∀ a b t, l₂ ≠ a :: b :: t) : l₁ = l₂ := by
  match l₂, hp, hshort with
  | [], hp, _ => exact List.perm_nil.1 hp
  | [a], hp, _ => exact List.perm_singleton.1 hp
  | a :: b :: t, _, h => exact absurd rfl (h a b t)

theorem keepsTieOrder_of_nodup (listing out : List item) (hp : out.Perm listing)
    (hnd : (listing.map (fun o => o.lastModified)).Nodup) : KeepsTieOrder listing out := by
  intro t
  refine perm_of_short _ _ (List.Perm.filter _ hp) ?_
  intro a b rest heq
  have hsub : (a :: b :: rest).Sublist listing := heq ▸ List.filter_sublist listing
  have hnd2 := hnd.sublist (hsub.map (fun o => o.lastModified))
  have ha : a ∈ listing.filter (fun o => decide (o.lastModified = t)) := by
    rw [heq]; simp
  have hb : b ∈ listing.filter (fun o => decide (o.lastModified = t)) := by
    rw [heq]; simp
  have ha2 : a.lastModified = t := by simpa using (List.mem_filter.1 ha).2
  have hb2 : b.lastModified = t := by simpa using (List.mem_filter.1 hb).2
  simp only [List.map_cons, List.nodup_cons, List.mem_cons, not_or] at hnd2
  exact hnd2.1.1 (ha2.trans hb2.symm)

/-- C6, as amended. For every listing, the order the grid handler gives the items is a
rearrangement of the listing in which the instants `lastModified` ascend (oldest first);
`sort.Slice` promises no more, so items with equal `lastModified` may change their
relative order, and they keep it whenever the instants of the listing are pairwise
distinct.  For the instants 3, 1, 2 with the names A, B, C the order is B, C, A. -/
theorem sortItems_sorted_perm (sortSlice : Sorter) (hc : SortSliceContract sortSlice)
    (contents : List Object) :
    (Combine.sortItems sortSlice contents).Perm
        (contents.map (fun o => { name := o.Key, lastModified := o.LastModified }))
    ∧ (Combine.sortItems sortSlice contents).Pairwise
        (fun a b => a.lastModified ≤ b.lastModified)
    ∧ ((contents.map (fun o => o.LastModified)).Nodup →
        KeepsTieOrder (contents.map (fun o => { name := o.Key, lastModified := o.LastModified }))
          (Combine.sortItems sortSlice contents))
    ∧ Combine.sortItems sortSlice [⟨"A", 3⟩, ⟨"B", 1⟩, ⟨"C", 2⟩]
        = [⟨"B", 1⟩, ⟨"C", 2⟩, ⟨"A", 3⟩] := by
  have key : ∀ xs : List Object,
      (Combine.sortItems sortSlice xs).Perm
          (xs.map (fun o => { name := o.Key, lastModified := o.LastModified }))
      ∧ (Combine.sortItems sortSlice xs).Pairwise
          (fun a b => a.lastModified ≤ b.lastModified) := by
    intro xs
    obtain ⟨hp, hs⟩ := hc (fun a b => decide (a.lastModified < b.lastModified))
      (by intro a b h; simp only [decide_eq_true_eq, decide_eq_false_iff_not] at h ⊢; omega)
      (by intro a b c h₁ h₂; simp only [decide_eq_false_iff_not] at h₁ h₂ ⊢; omega)
      (xs.map (fun o => { name := o.Key, lastModified := o.LastModified }))
    refine ⟨hp, hs.imp ?_⟩
    intro a b h
    simp only [decide_eq_false_iff_not] at h
    omega
  refine ⟨(key contents).1, (key contents).2, fun hnd => ?_, ?_⟩
  · refine keepsTieOrder_of_nodup _ _ (key contents).1 ?_
    simpa [List.map_map, Function.comp] using hnd
  · refine sorted_perm_unique _ _ ((key _).1.trans ?_) (key _).2 (by decide) (by decide)
    decide

theorem sortItems_sorted_perm_example :
    (Combine.sortItems shellInsertionSort Combine.tiedContents).Perm
        (Combine.tiedContents.map (fun o => { name := o.Key, lastModified := o.LastModified }))
    ∧ (Combine.sortItems shellInsertionSort Combine.tiedContents).Pairwise
        (fun a b => a.lastModified ≤ b.lastModified)
    ∧ ((Combine.tiedContents.map (fun o => o.LastModified)).Nodup →
        KeepsTieOrder
          (Combine.tiedContents.map (fun o => { name := o.Key, lastModified := o.LastModified }))
          (Combine.sortItems shellInsertionSort Combine.tiedContents))
    ∧ Combine.sortItems shellInsertionSort [⟨"A", 3⟩, ⟨"B", 1⟩, ⟨"C", 2⟩]
        = [⟨"B", 1⟩, ⟨"C", 2⟩, ⟨"A", 3⟩] :=
  sortItems_sorted_perm shellInsertionSort shellInsertionSort_contract Combine.tiedContents

/-- C6, as stated, fails. The gap-6 pass followed by the insertion sort, which is what
`sort.Slice` of Go 1.18 and earlier runs on a slice of seven items, meets everything
`sort.Slice` promises, and on the listing A, B, C, D, E, F, G with the instants
2, 1, 1, 1, 1, 1, 1 it returns G, B, C, D, E, F, A: G, listed last among the six items
of instant 1, comes out first. -/
theorem sort_slice_reorders_ties :
    SortSliceContract shellInsertionSort
    ∧ Combine.sortItems shellInsertionSort Combine.tiedContents
        = [⟨"G", 1⟩, ⟨"B", 1⟩, ⟨"C", 1⟩, ⟨"D", 1⟩, ⟨"E", 1⟩, ⟨"F", 1⟩, ⟨"A", 2⟩]
    ∧ ¬ KeepsTieOrder
        (Combine.tiedContents.map (fun o => { name := o.Key, lastModified := o.LastModified }))
        (Combine.sortItems shellInsertionSort Combine.tiedContents) := by
  refine ⟨shellInsertionSort_contract, by decide, fun h => ?_⟩
  have h1 := h 1
  revert h1
  decide

/-! ### The grid handler -/

theorem combinedImages_append (xs ys : List Effect) :
    combinedImages (xs ++ ys) = combinedImages xs ++ combinedImages ys := by
  induction xs with
  | nil => rfl
  | cons e rest ih => cases e <;> simp [combinedImages, ih]

theorem downloadedKeys_append (xs ys : List Effect) :
    downloadedKeys (xs ++ ys) = downloadedKeys xs ++ downloadedKeys ys := by
  induction xs with
  | nil => rfl
  | cons e rest ih => cases e <;> simp [downloadedKeys, ih]

theorem downloadAndDecode_steps (w : Combine.World) (n : Nat) (bucket key : String) :
    combinedImages (Combine.downloadAndDecode w n bucket key).1 = []
    ∧ downloadedKeys (Combine.downloadAndDecode w n bucket key).1 = [key] := by
  unfold Combine.downloadAndDecode
  split
  · exact ⟨rfl, rfl⟩
  · split <;> exact ⟨rfl, rfl⟩

theorem fetchLoop_spec (w : Combine.World) (bucket : String) (items : List item) :
    ∀ (n : Nat) (images : List Image) (tr : List Effect),
      (Combine.fetchLoop w bucket n items images tr).1
          = images ++ (items.enumFrom n).filterMap
              (fun no => (Combine.downloadAndDecode w no.1 bucket no.2.name).2.toOption)
      ∧ combinedImages (Combine.fetchLoop w bucket n items images tr).2 = combinedImages tr
      ∧ downloadedKeys (Combine.fetchLoop w bucket n items images tr).2
          = downloadedKeys tr ++ items.map (fun o => o.name) := by
  induction items with
  | nil => intro n images tr; simp [Combine.fetchLoop]
  | cons o rest ih =>
    intro n images tr
    have hsteps := downloadAndDecode_steps w n bucket o.name
    rw [Combine.fetchLoop]
    split
    · next steps err heq =>
      rw [heq] at hsteps
      obtain ⟨h1, h2, h3⟩ := ih (n + 1) images
        (tr ++ steps ++ [.log ("Cannot download " ++ o.name ++ " from " ++ bucket ++ ", "
          ++ err)])
      refine ⟨?_, ?_, ?_⟩
      · rw [h1]
        simp [List.enumFrom, heq, Except.toOption]
      · rw [h2]
        simp [combinedImages_append, hsteps.1, combinedImages]
      · rw [h3]
        simp [downloadedKeys_append, hsteps.2, downloadedKeys]
    · next steps img heq =>
      rw [heq] at hsteps
      obtain ⟨h1, h2, h3⟩ := ih (n + 1) (images ++ [img]) (tr ++ steps)
      refine ⟨?_, ?_, ?_⟩
      · rw [h1]
        simp [List.enumFrom, heq, Except.toOption]
      · rw [h2]
        simp [combinedImages_append, hsteps.1]
      · rw [h3]
        simp [downloadedKeys_append, hsteps.2]

theorem tooManyImages_head (n : Nat) (msg : String) (c : Char) (rest : List Char)
    (hmsg : msg.data = c :: rest) (hc : c ≠ 's') : msg ≠ Combine.tooManyImages n := by
  intro h
  have hd := congrArg (fun t => t.data.head?) h
  simp only [Combine.tooManyImages, String.data_append, hmsg, List.head?_cons] at hd
  simp at hd
  exact hc hd

theorem handleRecord_admitted (sortSlice : Sorter) (w : Combine.World)
    (record : Combine.S3EventRecord) (contents : List Object)
    (hs : w.newSession record.awsRegion = .ok ())
    (hl : w.listObjects record.bucket = .ok contents) (hN : contents.length ≤ 75) :
    ∃ more,
      (Combine.handleRecord sortSlice w record).effects
        = (Combine.fetchLoop w record.bucket 0 (Combine.sortItems sortSlice contents) []
              [.log ("Using bucket: " ++ record.bucket ++ " and key: " ++ record.key),
                .newSession record.awsRegion, .listObjects record.bucket]).2
            ++ [.imageCombine
                  (Combine.fetchLoop w record.bucket 0 (Combine.sortItems sortSlice contents) []
                    [.log ("Using bucket: " ++ record.bucket ++ " and key: " ++ record.key),
                      .newSession record.awsRegion, .listObjects record.bucket]).1,
                .pngEncode] ++ more
      ∧ combinedImages more = [] ∧ downloadedKeys more = []
      ∧ ∀ n, (Combine.handleRecord sortSlice w record).err ≠ some (Combine.tooManyImages n) := by
  unfold Combine.handleRecord
  simp only [hs, hl, List.cons_append, List.nil_append, List.append_assoc]
  rw [if_neg (by omega)]
  split
  · next err _ =>
    refine ⟨[], by simp, rfl, rfl, fun n h => ?_⟩
    simp only [Option.some.injEq] at h
    exact tooManyImages_head n _ 'e' _ (by simp only [String.data_append]; rfl) (by decide) h
  · split_ifs
    · refine ⟨_, rfl, rfl, rfl, fun n h => ?_⟩
      simp only [Option.some.injEq] at h
      exact tooManyImages_head n _ 'c' _ rfl (by decide) h
    · split
      · refine ⟨_, rfl, rfl, rfl, fun n h => ?_⟩
        simp only [Option.some.injEq] at h
        exact tooManyImages_head n _ 'F' _ (by simp only [String.data_append]; rfl)
          (by decide) h
      · exact ⟨_, rfl, rfl, rfl, fun n h => by simp at h⟩

/-- C7. For every admitted listing (at most 75 objects) and every outcome of the
downloads and decodings, the grid handler attempts the items in their sorted order and
calls `imageCombine` exactly once, with the images of the items whose download and
decoding succeeded, in the order of the sorted items; an item that fails is skipped and
the loop goes on; when every item fails, `imageCombine` is called with the empty
sequence. -/
theorem handler_combines_successful_images (sortSlice : Sorter) (w : Combine.World)
    (record : Combine.S3EventRecord) (contents : List Object)
    (hs : w.newSession record.awsRegion = .ok ())
    (hl : w.listObjects record.bucket = .ok contents) (hN : contents.length ≤ 75) :
    combinedImages (Combine.handleRecord sortSlice w record).effects
        = [(Combine.sortItems sortSlice contents).enum.filterMap
            (fun no => (Combine.downloadAndDecode w no.1 record.bucket no.2.name).2.toOption)]
    ∧ downloadedKeys (Combine.handleRecord sortSlice w record).effects
        = (Combine.sortItems sortSlice contents).map (fun o => o.name)
    ∧ ((∀ n key, (Combine.downloadAndDecode w n record.bucket key).2.toOption = none) →
        combinedImages (Combine.handleRecord sortSlice w record).effects = [[]]) := by
  obtain ⟨more, heff, hc, hd, _⟩ := handleRecord_admitted sortSlice w record contents hs hl hN
  obtain ⟨h1, h2, h3⟩ := fetchLoop_spec w record.bucket (Combine.sortItems sortSlice contents) 0 []
    [.log ("Using bucket: " ++ record.bucket ++ " and key: " ++ record.key),
      .newSession record.awsRegion, .listObjects record.bucket]
  have hcomb : combinedImages (Combine.handleRecord sortSlice w record).effects
      = [(Combine.sortItems sortSlice contents).enum.filterMap
          (fun no => (Combine.downloadAndDecode w no.1 record.bucket no.2.name).2.toOption)] := by
    rw [heff, combinedImages_append, combinedImages_append, h2, hc, h1]
    simp [combinedImages, List.enum]
  refine ⟨hcomb, ?_, fun hall => ?_⟩
  · rw [heff, downloadedKeys_append, downloadedKeys_append, h3, hd]
    simp [downloadedKeys]
  · rw [hcomb]
    simp [hall]

theorem handler_combines_two_of_three :
    (combinedImages (Combine.handleRecord shellInsertionSort
          (Combine.demoWorld Combine.exampleContents ["C"]) Combine.demoRecord).effects
        = [(Combine.sortItems shellInsertionSort Combine.exampleContents).enum.filterMap
            (fun no => (Combine.downloadAndDecode
              (Combine.demoWorld Combine.exampleContents ["C"]) no.1
              Combine.demoRecord.bucket no.2.name).2.toOption)]
      ∧ downloadedKeys (Combine.handleRecord shellInsertionSort
          (Combine.demoWorld Combine.exampleContents ["C"]) Combine.demoRecord).effects
        = (Combine.sortItems shellInsertionSort Combine.exampleContents).map (fun o => o.name)
      ∧ ((∀ n key, (Combine.downloadAndDecode
          (Combine.demoWorld Combine.exampleContents ["C"]) n
          Combine.demoRecord.bucket key).2.toOption = none) →
        combinedImages (Combine.handleRecord shellInsertionSort
          (Combine.demoWorld Combine.exampleContents ["C"]) Combine.demoRecord).effects
          = [[]]))
    ∧ downloadedKeys (Combine.handleRecord shellInsertionSort
          (Combine.demoWorld Combine.exampleContents ["C"]) Combine.demoRecord).effects
        = ["B", "C", "A"]
    ∧ (combinedImages (Combine.handleRecord shellInsertionSort
          (Combine.demoWorld Combine.exampleContents ["C"]) Combine.demoRecord).effects).map
          (fun images => images.map (fun img => img.w))
        = [["B".data.map Char.toNat, "A".data.map Char.toNat].map (fun data => data.headD 0)]
    ∧ (combinedImages (Combine.handleRecord shellInsertionSort
          (Combine.demoWorld Combine.exampleContents ["A", "B", "C"])
          Combine.demoRecord).effects).map (fun images => images.length) = [0] :=
  ⟨handler_combines_successful_images shellInsertionSort
      (Combine.demoWorld Combine.exampleContents ["C"]) Combine.demoRecord
      Combine.exampleContents rfl rfl (by decide),
    by decide, by decide, by decide⟩

/-- C5. In the grid handler the admission check fails exactly when the listing has more
than 75 objects.  For a listing of `N > 75` objects the handler returns the error
`stop processing, too many images to process, limit 75, got: N`, and all it has done is
to log, open the session and list the bucket: nothing is downloaded or decoded and
`imageCombine` is not called.  For a listing of `N ≤ 75` objects (75 included) the
handler does not return that error: it downloads the items and calls `imageCombine`. -/
theorem handler_admission_check (sortSlice : Sorter) (w : Combine.World)
    (record : Combine.S3EventRecord) (contents : List Object)
    (hs : w.newSession record.awsRegion = .ok ())
    (hl : w.listObjects record.bucket = .ok contents) :
    (75 < contents.length →
        (Combine.handleRecord sortSlice w record).err
            = some ("stop processing, too many images to process, limit 75, got: "
                ++ toString contents.length)
        ∧ (Combine.handleRecord sortSlice w record).effects
            = [.log ("Using bucket: " ++ record.bucket ++ " and key: " ++ record.key),
                .newSession record.awsRegion, .listObjects record.bucket]
        ∧ downloadedKeys (Combine.handleRecord sortSlice w record).effects = []
        ∧ combinedImages (Combine.handleRecord sortSlice w record).effects = []
        ∧ ∀ (ws : Nat → Combine.World) (rest : List Combine.S3EventRecord), ws 0 = w →
            (Combine.handler sortSlice ws 0 (record :: rest) []).err
                = some (Combine.tooManyImages contents.length)
            ∧ (Combine.handler sortSlice ws 0 (record :: rest) []).effects
                = [.log ("Using bucket: " ++ record.bucket ++ " and key: " ++ record.key),
                    .newSession record.awsRegion, .listObjects record.bucket])
    ∧ (contents.length ≤ 75 →
        (∀ n : Nat, (Combine.handleRecord sortSlice w record).err
            ≠ some ("stop processing, too many images to process, limit 75, got: "
                ++ toString n))
        ∧ downloadedKeys (Combine.handleRecord sortSlice w record).effects
            = (Combine.sortItems sortSlice contents).map (fun o => o.name)
        ∧ (combinedImages (Combine.handleRecord sortSlice w record).effects).length = 1) := by
  constructor
  · intro hbig
    have hrun : (Combine.handleRecord sortSlice w record).err
          = some (Combine.tooManyImages contents.length)
        ∧ (Combine.handleRecord sortSlice w record).effects
          = [.log ("Using bucket: " ++ record.bucket ++ " and key: " ++ record.key),
              .newSession record.awsRegion, .listObjects record.bucket] := by
      unfold Combine.handleRecord
      simp only [hs, hl]
      rw [if_pos hbig]
      exact ⟨rfl, rfl⟩
    refine ⟨hrun.1, hrun.2, by rw [hrun.2]; rfl, by rw [hrun.2]; rfl, ?_⟩
    intro ws rest hws
    rw [Combine.handler, hws]
    simp only [hrun.1, hrun.2]
    exact ⟨trivial, rfl⟩
  · intro hN
    obtain ⟨more, heff, hc, hd, herr⟩ :=
      handleRecord_admitted sortSlice w record contents hs hl hN
    obtain ⟨_, h2, h3⟩ := fetchLoop_spec w record.bucket
      (Combine.sortItems sortSlice contents) 0 []
      [.log ("Using bucket: " ++ record.bucket ++ " and key: " ++ record.key),
        .newSession record.awsRegion, .listObjects record.bucket]
    refine ⟨herr, ?_, ?_⟩
    · rw [heff, downloadedKeys_append, downloadedKeys_append, h3, hd]
      simp [downloadedKeys]
    · rw [heff, combinedImages_append, combinedImages_append, h2, hc]
      simp [combinedImages]

theorem handler_admission_check_76_and_75 :
    ((Combine.handleRecord shellInsertionSort
          (Combine.demoWorld (List.replicate 76 ⟨"A", 3⟩) []) Combine.demoRecord).err
        = some ("stop processing, too many images to process, limit 75, got: "
            ++ toString (List.replicate 76 (Object.mk "A" 3)).length)
      ∧ (Combine.handleRecord shellInsertionSort
          (Combine.demoWorld (List.replicate 76 ⟨"A", 3⟩) []) Combine.demoRecord).effects
        = [.log ("Using bucket: " ++ Combine.demoRecord.bucket ++ " and key: "
              ++ Combine.demoRecord.key),
            .newSession Combine.demoRecord.awsRegion,
            .listObjects Combine.demoRecord.bucket])
    ∧ (combinedImages (Combine.handleRecord shellInsertionSort
          (Combine.demoWorld (List.replicate 75 ⟨"A", 3⟩) []) Combine.demoRecord).effects).length
        = 1 :=
  ⟨⟨((handler_admission_check shellInsertionSort
        (Combine.demoWorld (List.replicate 76 ⟨"A", 3⟩) []) Combine.demoRecord
        (List.replicate 76 ⟨"A", 3⟩) rfl rfl).1 (by decide)).1,
      ((handler_admission_check shellInsertionSort
        (Combine.demoWorld (List.replicate 76 ⟨"A", 3⟩) []) Combine.demoRecord
        (List.replicate 76 ⟨"A", 3⟩) rfl rfl).1 (by decide)).2.1⟩,
    ((handler_admission_check shellInsertionSort
        (Combine.demoWorld (List.replicate 75 ⟨"A", 3⟩) []) Combine.demoRecord
        (List.replicate 75 ⟨"A", 3⟩) rfl rfl).2 (by decide)).2.2⟩

end WtmDemo
